import Mathlib

/-!
Verification of the feuilleton_novels article-processing pipeline
(`src/process_articles.py`).

The Python source is shallowly embedded below.  Strings are Lean `String`
(a structure over `List Char`), Python regular-expression substitutions are
modelled as character-list scanners whose semantics match the regex on the
relevant pattern, and the external collaborators (the SentenceTransformer
tokenizer and encoder, the SHA-256 digest) are function parameters.
Exceptions raised by collaborators are modelled with `Except`.
-/

namespace Feuilleton

/-- Characters treated as whitespace by the Python regex class `\s` and by
`str.strip()` / `str.split()` with no argument (ASCII fragment: space, tab,
newline, carriage return, vertical tab, form feed). -/
def isPySpace (c : Char) : Bool :=
  c = ' ' || c = '\t' || c = '\n' || c = '\r' || c = '\x0b' || c = '\x0c'

/-- The punctuation class `[.,!?;:]` used by `clean_whitespace`. -/
def isCleanPunct (c : Char) : Bool :=
  c = '.' || c = ',' || c = '!' || c = '?' || c = ';' || c = ':'

/-- The sentence-terminal class `[.!?]` used by `simple_sentencize`. -/
def isTerminal (c : Char) : Bool :=
  c = '.' || c = '!' || c = '?'

/-- Models `text.replace('\n', ' ')` (first step of `clean_whitespace`). -/
def replaceNewlines (l : List Char) : List Char :=
  l.map (fun c => if c = '\n' then ' ' else c)

/-- Models `re.sub(r'\s+', ' ', text)`: every maximal run of whitespace
characters is replaced by one single space.  The scanner works from the
right: a whitespace character directly followed by further whitespace is
dropped, and the last whitespace character of a run becomes `' '`. -/
def collapseRuns : List Char → List Char
  | [] => []
  | c :: cs =>
    let acc := collapseRuns cs
    if isPySpace c then
      match acc with
      | d :: _ => if isPySpace d then acc else ' ' :: acc
      | [] => ' ' :: acc
    else c :: acc

/-- Models `re.sub(r'\s+([.,!?;:])', r'\1', text)`: every maximal run of
whitespace characters directly followed by one of `. , ! ? ; :` is deleted.
The scanner works from the right: a whitespace character is deleted exactly
when the already processed suffix starts with such a punctuation character
(all whitespace between them has been deleted for the same reason). -/
def dropSpaceBeforePunct : List Char → List Char
  | [] => []
  | c :: cs =>
    let acc := dropSpaceBeforePunct cs
    if isPySpace c then
      match acc with
      | d :: _ => if isCleanPunct d then acc else c :: acc
      | [] => c :: acc
    else c :: acc

/-- Models `re.sub(r'([.,!?;:])\s+', r'\1 ', text)`: after one of
`. , ! ? ; :`, a maximal run of whitespace characters is replaced by exactly
one space.  Whitespace characters themselves pass through unchanged, so when
the scanner reaches the punctuation character the original run is still the
head of the processed suffix and is squeezed there. -/
def squeezeSpaceAfterPunct : List Char → List Char
  | [] => []
  | c :: cs =>
    let acc := squeezeSpaceAfterPunct cs
    if isCleanPunct c then
      match acc with
      | d :: ds => if isPySpace d then c :: ' ' :: ds.dropWhile isPySpace else c :: acc
      | [] => c :: acc
    else c :: acc

/-- Models `text.strip()`: remove leading and trailing whitespace. -/
def pyStrip (l : List Char) : List Char :=
  ((l.dropWhile isPySpace).reverse.dropWhile isPySpace).reverse

/-- Embedding of `clean_whitespace` from `process_articles.py`: replace
newlines by spaces, collapse whitespace runs, remove whitespace before
punctuation, squeeze whitespace after punctuation to one space, strip. -/
def clean_whitespace (s : String) : String :=
  String.mk (pyStrip (squeezeSpaceAfterPunct (dropSpaceBeforePunct
    (collapseRuns (replaceNewlines s.data)))))

/-- Scanner for `re.findall(r'[^.!?]*[.!?]', text)`.  A match is a maximal
span of non-terminal characters followed by one terminal character; text
after the last terminal character is never part of a match.  `acc` holds the
characters of the span read so far, in reverse. -/
def sentencizeAux : List Char → List Char → List (List Char)
  | [], _ => []
  | c :: cs, acc =>
    if isTerminal c then (acc.reverse ++ [c]) :: sentencizeAux cs []
    else sentencizeAux cs (c :: acc)

/-- Embedding of `simple_sentencize` from `process_articles.py`:
`re.findall(r'[^.!?]*[.!?]', text)`, each match stripped, empty results
dropped. -/
def simple_sentencize (s : String) : List String :=
  (( sentencizeAux s.data []).map pyStrip).filterMap
    (fun m => if m.isEmpty then none else some (String.mk m))

/-- Scanner for Python `str.split()` with no argument: the list of maximal
runs of non-whitespace characters.  `acc` holds the current run in
reverse. -/
def pySplitAux : List Char → List Char → List (List Char)
  | [], acc => if acc.isEmpty then [] else [acc.reverse]
  | c :: cs, acc =>
    if isPySpace c then
      if acc.isEmpty then pySplitAux cs [] else acc.reverse :: pySplitAux cs []
    else pySplitAux cs (c :: acc)

/-- Models `sentence.split()`: the whitespace-separated words of a string. -/
def pyWords (s : String) : List String :=
  (pySplitAux s.data []).map String.mk

/-- Models `" ".join(parts)`. -/
def joinSp : List String → String
  | [] => ""
  | [s] => s
  | s :: rest => s ++ " " ++ joinSp rest

/-- Embedding of the loop body of `split_long_sentence`.  State: the words
still to process, `current_part`, `current_len`.  When adding the next word
would push `current_len` over `max_tokens`, `" ".join(current_part)` is
appended to the parts unconditionally (also when `current_part` is empty),
`current_part` and `current_len` are reset, and the word is then appended
unconditionally.  At the end a non-empty `current_part` is flushed. -/
def splitLongAux (tok : String → Nat) (mx : Nat) :
    List String → List String → Nat → List String
  | [], cur, _ => if cur.isEmpty then [] else [joinSp cur]
  | w :: ws, cur, len =>
    let seq := tok w
    if len + seq > mx then
      joinSp cur :: splitLongAux tok mx ws [w] seq
    else
      splitLongAux tok mx ws (cur ++ [w]) (len + seq)

/-- Embedding of `split_long_sentence` from `process_articles.py`.  The
token count `len(model.tokenize(word)["input_ids"])` is abstracted as the
function parameter `tok`. -/
def split_long_sentence (tok : String → Nat) (mx : Nat) (s : String) : List String :=
  splitLongAux tok mx (pyWords s) [] 0

/-- Embedding of the loop body of `chunk_sentences`.  State: the sentences
still to process, `current_chunk`, `chunk_len`.  When the next sentence
would push `chunk_len` over `max_tokens`: if `current_chunk` is empty the
word-level parts of the sentence are appended to the output (and the state
is NOT reset), otherwise `current_chunk` is flushed and reset.  In every
case the sentence is then appended to `current_chunk` and its token count
added to `chunk_len`.  At the end a non-empty `current_chunk` is flushed. -/
def chunkAux (tok : String → Nat) (mx : Nat) :
    List String → List String → Nat → List String
  | [], cur, _ => if cur.isEmpty then [] else [joinSp cur]
  | s :: ss, cur, len =>
    let seq := tok s
    if len + seq > mx then
      if cur.isEmpty then
        split_long_sentence tok mx s ++ chunkAux tok mx ss (cur ++ [s]) (len + seq)
      else
        joinSp cur :: chunkAux tok mx ss [s] seq
    else
      chunkAux tok mx ss (cur ++ [s]) (len + seq)

/-- Embedding of `chunk_sentences` from `process_articles.py`. -/
def chunk_sentences (tok : String → Nat) (mx : Nat) (sentences : List String) : List String :=
  chunkAux tok mx sentences [] 0

/-- The words of a list of chunks, in order. -/
def wordsOf (chunks : List String) : List String :=
  chunks.flatMap pyWords

/-- Model of the Hugging Face tokenizer object used by `find_max_tokens`:
its configured `model_max_length` and its call on a string, which may raise
(modelled with `Except`). -/
structure HFTokenizer where
  model_max_length : Nat
  call : String → Except String Unit

/-- Embedding of `find_max_tokens` from `process_articles.py`: start from
`tokenizer.model_max_length`, replace it by 510 when above 9000, then try
the tokenizer on a test sentence and fall back to 510 when the call raises
(the exception is caught, so the run continues). -/
def find_max_tokens (tokenizer : HFTokenizer) : Nat :=
  let max_length := tokenizer.model_max_length
  let max_length := if max_length > 9000 then 510 else max_length
  match tokenizer.call "This is a test sentence." with
  | Except.ok _ => max_length
  | Except.error _ => 510

/-- Embedding of `hash_prompt`: the first 8 characters of the hexadecimal
SHA-256 digest of the prompt.  The digest itself
(`hashlib.sha256(prompt.encode()).hexdigest()`) is an external collaborator
and is abstracted as the function parameter `sha256hex`; the Python slice
`[:8]` on a string is the first 8 characters. -/
def hash_prompt (sha256hex : String → String) (prompt : String) : String :=
  String.mk ((sha256hex prompt).data.take 8)

/-- Models `model_name.replace("/", "__")`.  The pattern is the single
character `/`, so the replacement acts independently on each character. -/
def replaceSlash (s : String) : String :=
  String.mk (s.data.flatMap (fun c => if c = '/' then ['_', '_'] else [c]))

/-- Python truthiness of an optional string (`if prefix_description:`):
`None` and the empty string are falsy. -/
def strOptTruthy : Option String → Bool
  | none => false
  | some d => d ≠ ""

/-- Embedding of the output-directory naming in `main`
(`process_articles.py`, lines 142-152): `emb__{mname}_{prefix_description}`
when the prefix and its description are truthy, `emb__{mname}_{hash}` with
the 8-character prefix hash when only the prefix is truthy, and
`emb__{mname}` otherwise. -/
def output_dir_name (sha256hex : String → String) (model_name pfx : String)
    (descr : Option String) : String :=
  let mname := replaceSlash model_name
  if pfx ≠ "" then
    match descr with
    | some d =>
      if d ≠ "" then "emb__" ++ mname ++ "_" ++ d
      else "emb__" ++ mname ++ "_" ++ hash_prompt sha256hex pfx
    | none => "emb__" ++ mname ++ "_" ++ hash_prompt sha256hex pfx
  else "emb__" ++ mname

/-- Models `f"{prefix} {chunk}" if prefix else chunk` from the inference
stage of `main`: a truthy (non-empty) prefix is joined to the chunk with a
single inserted space, an empty prefix leaves the chunk unchanged. -/
def chunk_input (pfx chunk : String) : String :=
  if pfx ≠ "" then pfx ++ " " ++ chunk else chunk

/-- One row of the output dataset (`processed_articles` entries in `main`):
article id as a string, the chunk list, and one embedding per chunk.  The
embedding vectors are opaque here (type parameter `E`). -/
structure ProcessedArticle (E : Type) where
  article_id : String
  chunk : List String
  embedding : List E

/-- Embedding of the inner inference loop of `main`: encode each chunk in
order, prepending the prefix via `chunk_input`; the first raised exception
aborts the loop and the embeddings already computed are discarded. -/
def embed_chunks {E : Type} (encode : String → Except String E) (pfx : String) :
    List String → Except String (List E)
  | [] => Except.ok []
  | c :: cs =>
    match encode (chunk_input pfx c) with
    | Except.error e => Except.error e
    | Except.ok v =>
      match embed_chunks encode pfx cs with
      | Except.error e => Except.error e
      | Except.ok vs => Except.ok (v :: vs)

/-- Embedding of the per-record loop of `main`.  `idStr` models
`str(article_id)`, `pre` the preprocessing stage (clean, sentencize, chunk,
any of which may raise through the tokenizer), `encode` the embedding
collaborator.  A record whose preprocessing or embedding stage raises is
skipped (`continue`), contributing nothing to the output. -/
def process_records {α E : Type} (idStr : α → String)
    (pre : String → Except String (List String))
    (encode : String → Except String E) (pfx : String) :
    List (α × String) → List (ProcessedArticle E)
  | [] => []
  | (aid, text) :: rest =>
    match pre text with
    | Except.error _ => process_records idStr pre encode pfx rest
    | Except.ok chunks =>
      match embed_chunks encode pfx chunks with
      | Except.error _ => process_records idStr pre encode pfx rest
      | Except.ok embs =>
        { article_id := idStr aid, chunk := chunks, embedding := embs } ::
          process_records idStr pre encode pfx rest

/-- Whether both stages of `main` succeed on a record. -/
def record_ok {E : Type} (pre : String → Except String (List String))
    (encode : String → Except String E) (pfx : String) (r : α × String) : Bool :=
  match pre r.2 with
  | Except.error _ => false
  | Except.ok chunks =>
    match embed_chunks encode pfx chunks with
    | Except.error _ => false
    | Except.ok _ => true

/-- The `ProcessedArticle` a record yields in `main`, or `none` when one of
the two stages raises. -/
def record_result {α E : Type} (idStr : α → String)
    (pre : String → Except String (List String))
    (encode : String → Except String E) (pfx : String) (r : α × String) :
    Option (ProcessedArticle E) :=
  match pre r.2 with
  | Except.error _ => none
  | Except.ok chunks =>
    match embed_chunks encode pfx chunks with
    | Except.error _ => none
    | Except.ok embs => some { article_id := idStr r.1, chunk := chunks, embedding := embs }

/-- A tokenizer that counts every string as 10 tokens (concrete instance
used in counterexamples and witnesses). -/
def tokTen : String → Nat := fun _ => 10

/-- A tokenizer that counts every string as 0 tokens (concrete instance
used in witnesses). -/
def tokZero : String → Nat := fun _ => 0

/-- A fixed fake hexadecimal digest (concrete instance used in
witnesses). -/
def shaFix : String → String := fun _ => "0123456789abcdef"

/-- A tokenizer whose probe call succeeds, with a configured maximum of 400
(concrete instance used in witnesses). -/
def tokProbeOk : HFTokenizer where
  model_max_length := 400
  call := fun _ => Except.ok ()

/-- Head check used by the normal-form predicates: the first character, if
any, satisfies `p`. -/
def headOk (p : Char → Bool) : List Char → Bool
  | [] => true
  | c :: _ => p c

/-- Pairwise check: every pair of adjacent characters satisfies `p`. -/
def pairOk (p : Char → Char → Bool) : List Char → Bool
  | [] => true
  | [_] => true
  | a :: b :: l => p a b && pairOk p (b :: l)

/-- Every whitespace character is the plain space character. -/
def allWsSpace : List Char → Bool
  | [] => true
  | c :: cs => (!(isPySpace c) || c = ' ') && allWsSpace cs

/-- No two adjacent whitespace characters. -/
def noAdjWs (l : List Char) : Bool :=
  pairOk (fun a b => !(isPySpace a && isPySpace b)) l

/-- No whitespace character directly followed by the punctuation class of
`clean_whitespace`. -/
def noWsPunct (l : List Char) : Bool :=
  pairOk (fun a b => !(isPySpace a && isCleanPunct b)) l

/-- Normal form reached by the `clean_whitespace` pipeline: whitespace
occurs only as isolated plain spaces, never before punctuation, and not at
either end. -/
def cleanNormal (l : List Char) : Prop :=
  allWsSpace l ∧ noAdjWs l ∧ noWsPunct l ∧
    headOk (fun c => !isPySpace c) l ∧ headOk (fun c => !isPySpace c) l.reverse

/- ------------------------------------------------------------------ -/
/- Helper lemmas                                                      -/
/- ------------------------------------------------------------------ -/

theorem wordsOf_nil : wordsOf [] = [] := rfl

theorem wordsOf_cons (c : String) (l : List String) :
    wordsOf (c :: l) = pyWords c ++ wordsOf l := rfl

theorem wordsOf_append (l1 l2 : List String) :
    wordsOf (l1 ++ l2) = wordsOf l1 ++ wordsOf l2 := by
  induction l1 with
  | nil => rfl
  | cons c l ih => simp [wordsOf_cons, ih]

theorem pySplitAux_append_space (la lb : List Char) (acc : List Char) :
    pySplitAux (la ++ ' ' :: lb) acc = pySplitAux la acc ++ pySplitAux lb [] := by
  induction la generalizing acc with
  | nil =>
    by_cases h : acc.isEmpty <;> simp [pySplitAux, isPySpace, h]
  | cons c cs ih =>
    by_cases hc : isPySpace c
    · by_cases h : acc.isEmpty <;> simp [pySplitAux, hc, h, ih]
    · simp [pySplitAux, hc, ih]

theorem pyWords_join (a b : String) :
    pyWords (a ++ " " ++ b) = pyWords a ++ pyWords b := by
  have hdata : (a ++ " " ++ b).data = a.data ++ ' ' :: b.data := by
    simp [String.data_append]
  simp [pyWords, hdata, pySplitAux_append_space]

theorem pyWords_joinSp (l : List String) :
    pyWords (joinSp l) = l.flatMap pyWords := by
  induction l with
  | nil => rfl
  | cons s rest ih =>
    cases rest with
    | nil => simp [joinSp, pyWords, pySplitAux]
    | cons t r => simp [joinSp, pyWords_join, ih]

theorem pySplitAux_mem (l : List Char) :
    ∀ acc, (∀ c ∈ acc, isPySpace c = false) →
      ∀ m ∈ pySplitAux l acc, m ≠ [] ∧ ∀ c ∈ m, isPySpace c = false := by
  induction l with
  | nil =>
    intro acc hacc m hm
    by_cases h : acc.isEmpty
    · simp [pySplitAux, h] at hm
    · simp [pySplitAux, h] at hm
      subst hm
      constructor
      · simp [List.isEmpty_iff] at h
        simpa using h
      · intro c hc
        exact hacc c (by simpa using hc)
  | cons c cs ih =>
    intro acc hacc m hm
    by_cases hc : isPySpace c
    · by_cases h : acc.isEmpty
      · simp only [pySplitAux, hc, h, if_pos, if_true] at hm
        exact ih [] (by simp) m hm
      · simp only [pySplitAux, hc, h, if_true, if_false, Bool.false_eq_true,
          List.mem_cons] at hm
        rcases hm with hm | hm
        · subst hm
          constructor
          · simp [List.isEmpty_iff] at h
            simpa using h
          · intro d hd
            exact hacc d (by simpa using hd)
        · exact ih [] (by simp) m hm
    · simp only [pySplitAux, hc, Bool.false_eq_true, if_false] at hm
      refine ih (c :: acc) ?_ m hm
      intro d hd
      rcases List.mem_cons.mp hd with hd | hd
      · subst hd; simpa using hc
      · exact hacc d hd

theorem pySplitAux_all_nonspace (l : List Char) :
    ∀ acc, (∀ c ∈ l, isPySpace c = false) → (acc ≠ [] ∨ l ≠ []) →
      pySplitAux l acc = [acc.reverse ++ l] := by
  induction l with
  | nil =>
    intro acc _ hne
    have : ¬ acc.isEmpty := by
      rcases hne with h | h
      · simpa [List.isEmpty_iff] using h
      · exact absurd rfl h
    simp [pySplitAux, this]
  | cons c cs ih =>
    intro acc hl _
    have hc : isPySpace c = false := hl c (by simp)
    have := ih (c :: acc) (fun d hd => hl d (by simp [hd])) (Or.inl (by simp))
    simp only [pySplitAux, hc, Bool.false_eq_true, if_false, this]
    simp

theorem pyWords_word (s w : String) (hw : w ∈ pyWords s) :
    pyWords w = [w] ∧ w ≠ "" := by
  simp only [pyWords, List.mem_map] at hw
  obtain ⟨m, hm, rfl⟩ := hw
  obtain ⟨hne, hchars⟩ := pySplitAux_mem s.data [] (by simp) m hm
  constructor
  · have : pySplitAux (String.mk m).data [] = [m] := by
      have := pySplitAux_all_nonspace m [] hchars (Or.inr hne)
      simpa using this
    simp [pyWords, this]
  · intro h
    exact hne (congrArg String.data h)

theorem joinSp_append_single (l : List String) (x : String) (h : l ≠ []) :
    joinSp (l ++ [x]) = joinSp l ++ " " ++ x := by
  induction l with
  | nil => exact absurd rfl h
  | cons s rest ih =>
    cases rest with
    | nil => simp [joinSp]
    | cons t r =>
      have ih2 : joinSp (t :: (r ++ [x])) = joinSp (t :: r) ++ " " ++ x :=
        ih (by simp)
      show joinSp (s :: t :: (r ++ [x])) = joinSp (s :: t :: r) ++ " " ++ x
      simp only [joinSp]
      rw [ih2]
      simp [String.append_assoc]

theorem joinSp_ne_empty (l : List String) (h : l ≠ [])
    (he : ∀ x ∈ l, x ≠ "") : joinSp l ≠ "" := by
  cases l with
  | nil => exact absurd rfl h
  | cons s rest =>
    cases rest with
    | nil => simpa [joinSp] using he s (by simp)
    | cons t r =>
      intro hcontra
      have := congrArg String.data hcontra
      simp [joinSp, String.data_append] at this

/- ------------------------------------------------------------------ -/
/- C5: find_max_tokens                                                -/
/- ------------------------------------------------------------------ -/

/-- C5: `find_max_tokens` returns the configured `model_max_length` when it
is at most 9000 and the trial tokenization succeeds; it returns 510 when
`model_max_length` exceeds 9000; and it returns 510 when the trial
tokenization raises (the exception is caught, so the run continues with the
default instead of aborting). -/
theorem find_max_tokens_spec (t : HFTokenizer) :
    (t.model_max_length ≤ 9000 →
      (∃ u, t.call "This is a test sentence." = Except.ok u) →
      find_max_tokens t = t.model_max_length)
    ∧ (t.model_max_length > 9000 → find_max_tokens t = 510)
    ∧ (∀ e, t.call "This is a test sentence." = Except.error e →
        find_max_tokens t = 510) := by
  refine ⟨?_, ?_, ?_⟩
  · intro hle ⟨u, hu⟩
    have hgt : ¬ t.model_max_length > 9000 := by omega
    simp [find_max_tokens, hu, hgt]
  · intro hgt
    unfold find_max_tokens
    cases t.call "This is a test sentence." <;> simp [hgt]
  · intro e he
    simp [find_max_tokens, he]

theorem find_max_tokens_spec_witness :
    tokProbeOk.model_max_length ≤ 9000 ∧ find_max_tokens tokProbeOk = 400 :=
  ⟨by decide, (find_max_tokens_spec tokProbeOk).1 (by decide) ⟨(), rfl⟩⟩

/- ------------------------------------------------------------------ -/
/- C10: prefix joining before encoding                                -/
/- ------------------------------------------------------------------ -/

/-- C10: the string passed to the encoder is the prefix, one inserted space,
then the chunk when the prefix is non-empty (so the default prefix
`Query: `, which already ends in a space, puts two spaces before the
chunk), and the chunk unchanged when the prefix is empty. -/
theorem chunk_input_spec (pfx c : String) :
    (pfx ≠ "" → chunk_input pfx c = pfx ++ " " ++ c)
    ∧ (pfx = "" → chunk_input pfx c = c)
    ∧ chunk_input "Query: " c = "Query:  " ++ c := by
  refine ⟨?_, ?_, ?_⟩
  · intro h; simp [chunk_input, h]
  · intro h; simp [chunk_input, h]
  · have h1 : chunk_input "Query: " c = "Query: " ++ " " ++ c := by
      simp [chunk_input]
    have h2 : ("Query: " ++ " " : String) = "Query:  " := by decide
    rw [h1, h2]

theorem chunk_input_spec_witness :
    ("Query: " : String) ≠ "" ∧ chunk_input "Query: " "abc" = "Query: " ++ " " ++ "abc" :=
  ⟨by decide, (chunk_input_spec "Query: " "abc").1 (by decide)⟩

/- ------------------------------------------------------------------ -/
/- C8: output directory naming                                        -/
/- ------------------------------------------------------------------ -/

/-- C8: the output directory name is a deterministic function of the model
identifier, the prefix and the optional description; when the prefix is
truthy and the description is not, the name uses the 8-character hash of the
prefix. -/
theorem output_dir_name_spec (h : String → String) (m p : String)
    (d : Option String) (hlen : 8 ≤ (h p).length) :
    (∀ m2 p2 d2, m = m2 → p = p2 → d = d2 →
      output_dir_name h m p d = output_dir_name h m2 p2 d2)
    ∧ (p ≠ "" → strOptTruthy d = false →
        output_dir_name h m p d = "emb__" ++ replaceSlash m ++ "_" ++ hash_prompt h p)
    ∧ (hash_prompt h p).length = 8 := by
  refine ⟨?_, ?_, ?_⟩
  · intro m2 p2 d2 hm hp hd
    subst hm; subst hp; subst hd; rfl
  · intro hp hd
    cases d with
    | none => simp [output_dir_name, hp]
    | some dd =>
      have hdd : dd = "" := by
        by_contra hne
        simp [strOptTruthy, hne] at hd
      subst hdd
      have hred : output_dir_name h m p (some "") =
          (if p ≠ "" then
            (if ("" : String) ≠ "" then "emb__" ++ replaceSlash m ++ "_" ++ ""
             else "emb__" ++ replaceSlash m ++ "_" ++ hash_prompt h p)
           else "emb__" ++ replaceSlash m) := rfl
      rw [hred, if_pos hp, if_neg (fun hc => hc rfl)]
  · show (String.mk ((h p).data.take 8)).length = 8
    rw [String.length_mk, List.length_take]
    have h8 : 8 ≤ (h p).data.length := hlen
    omega

theorem output_dir_name_spec_witness :
    8 ≤ (shaFix "Query: ").length ∧
      output_dir_name shaFix "org/model" "Query: " none = "emb__org__model_01234567" :=
  ⟨by decide,
    ((output_dir_name_spec shaFix "org/model" "Query: " none (by decide)).2.1
      (by decide) rfl).trans (by decide)⟩

/- ------------------------------------------------------------------ -/
/- C6: simple_sentencize                                              -/
/- ------------------------------------------------------------------ -/

theorem sentencizeAux_no_terminal (u : List Char)
    (h : ∀ c ∈ u, isTerminal c = false) : ∀ acc, sentencizeAux u acc = [] := by
  induction u with
  | nil => intro acc; rfl
  | cons c cs ih =>
    intro acc
    have hc : isTerminal c = false := h c (by simp)
    simp only [sentencizeAux, hc, Bool.false_eq_true, if_false]
    exact ih (fun d hd => h d (by simp [hd])) _

theorem sentencizeAux_append (t u : List Char)
    (h : ∀ c ∈ u, isTerminal c = false) :
    ∀ acc, sentencizeAux (t ++ u) acc = sentencizeAux t acc := by
  induction t with
  | nil =>
    intro acc
    simpa [sentencizeAux] using sentencizeAux_no_terminal u h acc
  | cons c cs ih =>
    intro acc
    by_cases hc : isTerminal c <;> simp [sentencizeAux, hc, ih]

/-- C6: `simple_sentencize "A. B! C?"` is `["A.", "B!", "C?"]`, text with no
terminal punctuation yields the empty list, and in general any trailing text
containing no terminal punctuation character is dropped from the output. -/
theorem simple_sentencize_spec :
    simple_sentencize "A. B! C?" = ["A.", "B!", "C?"]
    ∧ simple_sentencize "no end" = []
    ∧ ∀ t u : String, (∀ c ∈ u.data, isTerminal c = false) →
        simple_sentencize (t ++ u) = simple_sentencize t := by
  refine ⟨by decide, by decide, ?_⟩
  intro t u h
  simp [simple_sentencize, String.data_append, sentencizeAux_append t.data u.data h]

theorem simple_sentencize_spec_witness :
    (∀ c ∈ (" tail" : String).data, isTerminal c = false) ∧
      simple_sentencize ("A. B!" ++ " tail") = simple_sentencize "A. B!" :=
  ⟨by decide, simple_sentencize_spec.2.2 "A. B!" " tail" (by decide)⟩

/- ------------------------------------------------------------------ -/
/- C2: counterexample, empty chunk is emitted                         -/
/- ------------------------------------------------------------------ -/

/- ------------------------------------------------------------------ -/
/- Chunker lemmas                                                     -/
/- ------------------------------------------------------------------ -/

theorem splitLongAux_words (tok : String → Nat) (mx : Nat) :
    ∀ ws cur len, (∀ w ∈ ws, pyWords w = [w]) →
      wordsOf (splitLongAux tok mx ws cur len) = cur.flatMap pyWords ++ ws := by
  intro ws
  induction ws with
  | nil =>
    intro cur len _
    cases cur with
    | nil => simp [splitLongAux, wordsOf]
    | cons a l => simp [splitLongAux, wordsOf_cons, wordsOf_nil, pyWords_joinSp]
  | cons w ws ih =>
    intro cur len hw
    have hww : pyWords w = [w] := hw w (by simp)
    have hws : ∀ x ∈ ws, pyWords x = [x] := fun x hx => hw x (by simp [hx])
    by_cases hgt : len + tok w > mx
    · simp only [splitLongAux]
      rw [if_pos hgt, wordsOf_cons, ih [w] (tok w) hws, pyWords_joinSp]
      simp [hww]
    · simp only [splitLongAux]
      rw [if_neg hgt, ih (cur ++ [w]) (len + tok w) hws]
      simp [hww]

theorem split_long_sentence_words (tok : String → Nat) (mx : Nat) (s : String) :
    wordsOf (split_long_sentence tok mx s) = pyWords s := by
  unfold split_long_sentence
  rw [splitLongAux_words tok mx (pyWords s) [] 0
    (fun w hw => (pyWords_word s w hw).1)]
  simp

theorem chunkAux_words (tok : String → Nat) (mx : Nat) :
    ∀ ss cur len, cur ≠ [] →
      wordsOf (chunkAux tok mx ss cur len) = cur.flatMap pyWords ++ wordsOf ss := by
  intro ss
  induction ss with
  | nil =>
    intro cur len hcur
    cases cur with
    | nil => exact absurd rfl hcur
    | cons a l => simp [chunkAux, wordsOf_cons, wordsOf_nil, pyWords_joinSp]
  | cons s ss ih =>
    intro cur len hcur
    cases cur with
    | nil => exact absurd rfl hcur
    | cons a l =>
      by_cases hgt : len + tok s > mx
      · simp only [chunkAux]
        rw [if_pos hgt]
        show wordsOf (joinSp (a :: l) :: chunkAux tok mx ss [s] (tok s)) = _
        rw [wordsOf_cons, ih [s] (tok s) (by simp), pyWords_joinSp, wordsOf_cons]
        simp
      · simp only [chunkAux]
        rw [if_neg hgt, ih ((a :: l) ++ [s]) (len + tok s) (by simp), wordsOf_cons]
        simp

/- ------------------------------------------------------------------ -/
/- C1: oversized-sentence duplication and word coverage               -/
/- ------------------------------------------------------------------ -/

/-- C1: when the first processed sentence alone exceeds `max_tokens` (the
only reachable state with an empty buffer), its word-level parts are
appended to the output AND the sentence itself is still appended to the
buffer; consequently the concatenated words of all emitted chunks are
exactly the input words plus one extra copy of the words of that oversized
sentence (and no duplication arises otherwise). -/
theorem chunk_sentences_coverage (tok : String → Nat) (mx : Nat) (ss : List String) :
    wordsOf (chunk_sentences tok mx ss) =
      (match ss with
       | [] => ([] : List String)
       | s :: _ => if tok s > mx then pyWords s else []) ++ wordsOf ss
    ∧ ∀ s rest, ss = s :: rest → tok s > mx →
        chunk_sentences tok mx ss =
          split_long_sentence tok mx s ++ chunkAux tok mx rest [s] (tok s) := by
  constructor
  · cases ss with
    | nil => rfl
    | cons s rest =>
      by_cases hgt : tok s > mx
      · have hgt0 : 0 + tok s > mx := by omega
        simp only [chunk_sentences, chunkAux]
        rw [if_pos hgt0]
        show wordsOf (split_long_sentence tok mx s ++
          chunkAux tok mx rest ([] ++ [s]) (0 + tok s)) = _
        rw [wordsOf_append, split_long_sentence_words,
          chunkAux_words tok mx rest ([] ++ [s]) (0 + tok s) (by simp)]
        simp [hgt, wordsOf_cons]
      · have hgt0 : ¬ (0 + tok s > mx) := by omega
        simp only [chunk_sentences, chunkAux]
        rw [if_neg hgt0,
          chunkAux_words tok mx rest ([] ++ [s]) (0 + tok s) (by simp)]
        simp [hgt, wordsOf_cons]
  · intro s rest hss hgt
    subst hss
    have hgt0 : 0 + tok s > mx := by omega
    simp only [chunk_sentences, chunkAux]
    rw [if_pos hgt0]
    show split_long_sentence tok mx s ++
      chunkAux tok mx rest ([] ++ [s]) (0 + tok s) = _
    congr 1
    simp

theorem chunk_sentences_coverage_witness :
    tokTen "aa" > 5 ∧
      chunk_sentences tokTen 5 ["aa", "bb"] =
        split_long_sentence tokTen 5 "aa" ++ chunkAux tokTen 5 ["bb"] ["aa"] (tokTen "aa") :=
  ⟨by decide, (chunk_sentences_coverage tokTen 5 ["aa", "bb"]).2 "aa" ["bb"] rfl (by decide)⟩

/- ------------------------------------------------------------------ -/
/- C2 amended: non-empty chunks under word-budget hypotheses          -/
/- ------------------------------------------------------------------ -/

theorem splitLongAux_parts_ne_empty (tok : String → Nat) (mx : Nat) :
    ∀ ws cur len, (∀ w ∈ ws, tok w ≤ mx) → (∀ w ∈ ws, w ≠ "") →
      (∀ x ∈ cur, x ≠ "") → (cur = [] → len = 0) →
      ∀ p ∈ splitLongAux tok mx ws cur len, p ≠ "" := by
  intro ws
  induction ws with
  | nil =>
    intro cur len _ _ hcur _ p hp
    cases cur with
    | nil => simp [splitLongAux] at hp
    | cons a l =>
      simp only [splitLongAux, List.isEmpty_cons, Bool.false_eq_true, if_false,
        List.mem_singleton] at hp
      subst hp
      exact joinSp_ne_empty (a :: l) (by simp) hcur
  | cons w ws ih =>
    intro cur len htok hne hcur hzero p hp
    have hw : tok w ≤ mx := htok w (by simp)
    have hwne : w ≠ "" := hne w (by simp)
    have htok2 : ∀ x ∈ ws, tok x ≤ mx := fun x hx => htok x (by simp [hx])
    have hne2 : ∀ x ∈ ws, x ≠ "" := fun x hx => hne x (by simp [hx])
    by_cases hgt : len + tok w > mx
    · have hcne : cur ≠ [] := by
        intro hc
        have := hzero hc
        omega
      simp only [splitLongAux] at hp
      rw [if_pos hgt] at hp
      rcases List.mem_cons.mp hp with hp | hp
      · subst hp
        exact joinSp_ne_empty cur hcne hcur
      · exact ih [w] (tok w) htok2 hne2
          (fun x hx => by rw [List.mem_singleton.mp hx]; exact hwne)
          (fun h => absurd h (by simp)) p hp
    · simp only [splitLongAux] at hp
      rw [if_neg hgt] at hp
      refine ih (cur ++ [w]) (len + tok w) htok2 hne2 ?_
        (fun h => absurd h (by simp)) p hp
      intro x hx
      rcases List.mem_append.mp hx with hx | hx
      · exact hcur x hx
      · rw [List.mem_singleton.mp hx]; exact hwne

theorem split_long_sentence_parts_ne_empty (tok : String → Nat) (mx : Nat)
    (s : String) (h : ∀ w ∈ pyWords s, tok w ≤ mx) :
    ∀ p ∈ split_long_sentence tok mx s, p ≠ "" :=
  splitLongAux_parts_ne_empty tok mx (pyWords s) [] 0 h
    (fun w hw => (pyWords_word s w hw).2) (by simp) (fun _ => rfl)

theorem chunkAux_chunks_ne_empty (tok : String → Nat) (mx : Nat) :
    ∀ ss cur len, (∀ s ∈ ss, s ≠ "") →
      (∀ s ∈ ss, ∀ w ∈ pyWords s, tok w ≤ mx) →
      (∀ x ∈ cur, x ≠ "") →
      ∀ c ∈ chunkAux tok mx ss cur len, c ≠ "" := by
  intro ss
  induction ss with
  | nil =>
    intro cur len _ _ hcur c hc
    cases cur with
    | nil => simp [chunkAux] at hc
    | cons a l =>
      simp only [chunkAux, List.isEmpty_cons, Bool.false_eq_true, if_false,
        List.mem_singleton] at hc
      subst hc
      exact joinSp_ne_empty (a :: l) (by simp) hcur
  | cons s ss ih =>
    intro cur len hne hbud hcur c hc
    have hsne : s ≠ "" := hne s (by simp)
    have hne2 : ∀ x ∈ ss, x ≠ "" := fun x hx => hne x (by simp [hx])
    have hbud2 : ∀ x ∈ ss, ∀ w ∈ pyWords x, tok w ≤ mx :=
      fun x hx => hbud x (by simp [hx])
    have hcur2 : ∀ x ∈ cur ++ [s], x ≠ "" := by
      intro x hx
      rcases List.mem_append.mp hx with hx | hx
      · exact hcur x hx
      · rw [List.mem_singleton.mp hx]; exact hsne
    by_cases hgt : len + tok s > mx
    · cases cur with
      | nil =>
        simp only [chunkAux] at hc
        rw [if_pos hgt] at hc
        rcases List.mem_append.mp hc with hc | hc
        · exact split_long_sentence_parts_ne_empty tok mx s
            (hbud s (by simp)) c hc
        · exact ih ([] ++ [s]) (len + tok s) hne2 hbud2 hcur2 c hc
      | cons a l =>
        simp only [chunkAux] at hc
        rw [if_pos hgt] at hc
        rcases List.mem_cons.mp hc with hc | hc
        · subst hc
          exact joinSp_ne_empty (a :: l) (by simp) hcur
        · exact ih [s] (tok s) hne2 hbud2
            (fun x hx => by rw [List.mem_singleton.mp hx]; exact hsne) c hc
    · simp only [chunkAux] at hc
      rw [if_neg hgt] at hc
      exact ih (cur ++ [s]) (len + tok s) hne2 hbud2 hcur2 c hc

/-- C2 amended: every chunk emitted by `chunk_sentences` is a non-empty
string, provided every input sentence is non-empty and no single word of
any sentence has a token count exceeding `max_tokens` (without the latter
the word-level fallback flushes its still empty buffer and emits the empty
string, see the counterexample). -/
theorem chunk_sentences_nonempty (tok : String → Nat) (mx : Nat)
    (ss : List String) (h1 : ∀ s ∈ ss, s ≠ "")
    (h2 : ∀ s ∈ ss, ∀ w ∈ pyWords s, tok w ≤ mx) :
    ∀ c ∈ chunk_sentences tok mx ss, c ≠ "" :=
  chunkAux_chunks_ne_empty tok mx ss [] 0 h1 h2 (by simp)

theorem chunk_sentences_nonempty_witness :
    ¬ (("" : String) ∈ chunk_sentences tokZero 1 ["ab", "cd ef"]) :=
  fun h =>
    chunk_sentences_nonempty tokZero 1 ["ab", "cd ef"] (by decide) (by decide) "" h rfl

/- ------------------------------------------------------------------ -/
/- C3, C4: token budgets                                              -/
/- ------------------------------------------------------------------ -/

theorem splitLongAux_budget (tok : String → Nat) (mx : Nat)
    (hsub : ∀ a b : String, tok (a ++ " " ++ b) ≤ tok a + tok b) :
    ∀ ws cur len, (∀ w ∈ ws, tok w ≤ mx) → (cur = [] → len = 0) →
      (cur ≠ [] → tok (joinSp cur) ≤ len) → len ≤ mx →
      ∀ p ∈ splitLongAux tok mx ws cur len, tok p ≤ mx := by
  intro ws
  induction ws with
  | nil =>
    intro cur len _ _ hjoin hlen p hp
    cases cur with
    | nil => simp [splitLongAux] at hp
    | cons a l =>
      simp only [splitLongAux, List.isEmpty_cons, Bool.false_eq_true, if_false,
        List.mem_singleton] at hp
      subst hp
      exact le_trans (hjoin (by simp)) hlen
  | cons w ws ih =>
    intro cur len htok hzero hjoin hlen p hp
    have hw : tok w ≤ mx := htok w (by simp)
    have htok2 : ∀ x ∈ ws, tok x ≤ mx := fun x hx => htok x (by simp [hx])
    by_cases hgt : len + tok w > mx
    · have hcne : cur ≠ [] := by
        intro hc
        have := hzero hc
        omega
      simp only [splitLongAux] at hp
      rw [if_pos hgt] at hp
      rcases List.mem_cons.mp hp with hp | hp
      · subst hp
        exact le_trans (hjoin hcne) hlen
      · exact ih [w] (tok w) htok2 (fun h => absurd h (by simp))
          (fun _ => Nat.le_refl (tok w)) hw p hp
    · simp only [splitLongAux] at hp
      rw [if_neg hgt] at hp
      refine ih (cur ++ [w]) (len + tok w) htok2
        (fun h => absurd h (by simp)) ?_ (by omega) p hp
      intro _
      cases cur with
      | nil =>
        have h0 : len = 0 := hzero rfl
        subst h0
        show tok (joinSp [w]) ≤ 0 + tok w
        simp [joinSp]
      | cons a l =>
        rw [joinSp_append_single (a :: l) w (by simp)]
        calc tok (joinSp (a :: l) ++ " " ++ w)
            ≤ tok (joinSp (a :: l)) + tok w := hsub _ _
          _ ≤ len + tok w := Nat.add_le_add_right (hjoin (by simp)) _

/-- C4: when no single word of the sentence has a token count above
`max_tokens` (and the token count of a space-join is at most the sum of the
token counts, the subadditivity the packing arithmetic assumes), every part
emitted by `split_long_sentence` has a token count of at most
`max_tokens`. -/
theorem split_long_sentence_budget (tok : String → Nat) (mx : Nat) (s : String)
    (hw : ∀ w ∈ pyWords s, tok w ≤ mx)
    (hsub : ∀ a b : String, tok (a ++ " " ++ b) ≤ tok a + tok b) :
    ∀ p ∈ split_long_sentence tok mx s, tok p ≤ mx :=
  splitLongAux_budget tok mx hsub (pyWords s) [] 0 hw (fun _ => rfl)
    (fun hc => absurd rfl hc) (Nat.zero_le mx)

theorem split_long_sentence_budget_witness :
    tokZero "a b" ≤ 0 :=
  split_long_sentence_budget tokZero 0 "a b" (by decide)
    (fun _ _ => Nat.zero_le _) "a b" (by decide)

theorem chunkAux_budget (tok : String → Nat) (mx : Nat)
    (hsub : ∀ a b : String, tok (a ++ " " ++ b) ≤ tok a + tok b) :
    ∀ ss cur len, (∀ s ∈ ss, tok s ≤ mx) → (cur = [] → len = 0) →
      (cur ≠ [] → tok (joinSp cur) ≤ len) → len ≤ mx →
      ∀ c ∈ chunkAux tok mx ss cur len, tok c ≤ mx := by
  intro ss
  induction ss with
  | nil =>
    intro cur len _ _ hjoin hlen c hc
    cases cur with
    | nil => simp [chunkAux] at hc
    | cons a l =>
      simp only [chunkAux, List.isEmpty_cons, Bool.false_eq_true, if_false,
        List.mem_singleton] at hc
      subst hc
      exact le_trans (hjoin (by simp)) hlen
  | cons s ss ih =>
    intro cur len htok hzero hjoin hlen c hc
    have hs : tok s ≤ mx := htok s (by simp)
    have htok2 : ∀ x ∈ ss, tok x ≤ mx := fun x hx => htok x (by simp [hx])
    by_cases hgt : len + tok s > mx
    · cases cur with
      | nil =>
        have h0 : len = 0 := hzero rfl
        omega
      | cons a l =>
        simp only [chunkAux] at hc
        rw [if_pos hgt] at hc
        rcases List.mem_cons.mp hc with hc | hc
        · subst hc
          exact le_trans (hjoin (by simp)) hlen
        · exact ih [s] (tok s) htok2 (fun h => absurd h (by simp))
            (fun _ => Nat.le_refl (tok s)) hs c hc
    · simp only [chunkAux] at hc
      rw [if_neg hgt] at hc
      refine ih (cur ++ [s]) (len + tok s) htok2
        (fun h => absurd h (by simp)) ?_ (by omega) c hc
      intro _
      cases cur with
      | nil =>
        have h0 : len = 0 := hzero rfl
        subst h0
        show tok (joinSp [s]) ≤ 0 + tok s
        simp [joinSp]
      | cons a l =>
        rw [joinSp_append_single (a :: l) s (by simp)]
        calc tok (joinSp (a :: l) ++ " " ++ s)
            ≤ tok (joinSp (a :: l)) + tok s := hsub _ _
          _ ≤ len + tok s := Nat.add_le_add_right (hjoin (by simp)) _

/-- C3: for `max_tokens ≥ 1`, when no single sentence has a token count
above `max_tokens` (and the token count of a space-join is at most the sum
of the token counts, the subadditivity the packing arithmetic assumes),
every chunk emitted by `chunk_sentences` has a token count of at most
`max_tokens`.  The word-level fallback is unreachable under these
hypotheses. -/
theorem chunk_sentences_budget (tok : String → Nat) (mx : Nat)
    (ss : List String) (_hmx : 1 ≤ mx) (hs : ∀ s ∈ ss, tok s ≤ mx)
    (hsub : ∀ a b : String, tok (a ++ " " ++ b) ≤ tok a + tok b) :
    ∀ c ∈ chunk_sentences tok mx ss, tok c ≤ mx :=
  chunkAux_budget tok mx hsub ss [] 0 hs (fun _ => rfl)
    (fun hc => absurd rfl hc) (Nat.zero_le mx)

theorem chunk_sentences_budget_witness :
    tokZero "a" ≤ 1 :=
  chunk_sentences_budget tokZero 1 ["a"] (by decide) (by decide)
    (fun _ _ => Nat.zero_le _) "a" (by decide)

/-- C2 counterexample: with `max_tokens = 5 > 0` and a tokenizer counting
every string as 10 tokens, the single sentence `"big"` takes the word-level
fallback path, which flushes the still empty `current_part` and thereby
emits the empty string as a chunk (the sentence is also duplicated). -/
theorem chunk_sentences_emits_empty_chunk :
    chunk_sentences tokTen 5 ["big"] = ["", "big", "big"]
    ∧ "" ∈ chunk_sentences tokTen 5 ["big"] := by
  refine ⟨by decide, by decide⟩

/- ------------------------------------------------------------------ -/
/- C9: per-record error isolation in the orchestrator                 -/
/- ------------------------------------------------------------------ -/

theorem process_records_cons {α E : Type} (idStr : α → String)
    (pre : String → Except String (List String))
    (encode : String → Except String E) (pfx : String)
    (aid : α) (text : String) (rest : List (α × String)) :
    process_records idStr pre encode pfx ((aid, text) :: rest) =
      (match record_result idStr pre encode pfx (aid, text) with
       | none => process_records idStr pre encode pfx rest
       | some pa => pa :: process_records idStr pre encode pfx rest) := by
  cases hpre : pre text with
  | error e => simp only [process_records, record_result, hpre]
  | ok chunks =>
    cases hemb : embed_chunks encode pfx chunks with
    | error e => simp only [process_records, record_result, hpre, hemb]
    | ok embs => simp only [process_records, record_result, hpre, hemb]

theorem record_ok_eq_isSome {α E : Type} (idStr : α → String)
    (pre : String → Except String (List String))
    (encode : String → Except String E) (pfx : String) (r : α × String) :
    record_ok pre encode pfx r = (record_result idStr pre encode pfx r).isSome := by
  obtain ⟨aid, text⟩ := r
  cases hpre : pre text with
  | error e => simp only [record_ok, record_result, hpre, Option.isSome_none]
  | ok chunks =>
    cases hemb : embed_chunks encode pfx chunks with
    | error e => simp only [record_ok, record_result, hpre, hemb, Option.isSome_none]
    | ok embs => simp only [record_ok, record_result, hpre, hemb, Option.isSome_some]

/-- C9: a record whose preprocessing or embedding stage raises is skipped
entirely: the output is exactly the per-record results of the succeeding
records, in input order, with no placeholder for skipped records (and the
embeddings already computed for a failing record are discarded with it); in
particular the output ids are the ids of the succeeding records, in their
original order. -/
theorem process_records_skip_on_error {α E : Type} (idStr : α → String)
    (pre : String → Except String (List String))
    (encode : String → Except String E) (pfx : String)
    (records : List (α × String)) :
    process_records idStr pre encode pfx records
      = records.filterMap (record_result idStr pre encode pfx)
    ∧ (process_records idStr pre encode pfx records).map ProcessedArticle.article_id
      = (records.filter (record_ok pre encode pfx)).map (fun r => idStr r.1) := by
  constructor
  · induction records with
    | nil => rfl
    | cons r rest ih =>
      obtain ⟨aid, text⟩ := r
      rw [process_records_cons, List.filterMap_cons]
      cases record_result idStr pre encode pfx (aid, text) with
      | none => exact ih
      | some pa => simp [ih]
  · induction records with
    | nil => rfl
    | cons r rest ih =>
      obtain ⟨aid, text⟩ := r
      rw [process_records_cons, List.filter_cons,
        record_ok_eq_isSome idStr pre encode pfx]
      cases hres : record_result idStr pre encode pfx (aid, text) with
      | none => simpa using ih
      | some pa =>
        have hid : pa.article_id = idStr aid := by
          simp only [record_result] at hres
          cases hpre : pre text with
          | error e => simp only [hpre] at hres; exact absurd hres (by simp)
          | ok chunks =>
            simp only [hpre] at hres
            cases hemb : embed_chunks encode pfx chunks with
            | error e => simp only [hemb] at hres; exact absurd hres (by simp)
            | ok embs =>
              simp only [hemb, Option.some.injEq] at hres
              rw [← hres]
        simp [ih, hid]

/- ------------------------------------------------------------------ -/
/- C7: clean_whitespace idempotence                                   -/
/- ------------------------------------------------------------------ -/

theorem pairOk_cons (p : Char → Char → Bool) (a : Char) (l : List Char) :
    pairOk p (a :: l) = (headOk (p a) l && pairOk p l) := by
  cases l <;> simp [pairOk, headOk]

theorem noAdjWs_cons (a : Char) (l : List Char) :
    noAdjWs (a :: l) =
      (headOk (fun b => !(isPySpace a && isPySpace b)) l && noAdjWs l) :=
  pairOk_cons _ a l

theorem noWsPunct_cons (a : Char) (l : List Char) :
    noWsPunct (a :: l) =
      (headOk (fun b => !(isPySpace a && isCleanPunct b)) l && noWsPunct l) :=
  pairOk_cons _ a l

theorem collapseRuns_norm (l : List Char) :
    allWsSpace (collapseRuns l) ∧ noAdjWs (collapseRuns l) := by
  induction l with
  | nil => exact ⟨rfl, rfl⟩
  | cons c cs ih =>
    obtain ⟨ih1, ih2⟩ := ih
    by_cases hc : isPySpace c
    · cases hacc : collapseRuns cs with
      | nil =>
        simp only [collapseRuns, hc, if_true, hacc]
        exact ⟨by decide, by decide⟩
      | cons d ds =>
        rw [hacc] at ih1 ih2
        by_cases hd : isPySpace d
        · simp only [collapseRuns, hc, if_true, hacc, hd]
          exact ⟨ih1, ih2⟩
        · simp only [collapseRuns, hc, if_true, hacc, hd, Bool.false_eq_true,
            if_false]
          refine ⟨?_, ?_⟩
          · simpa [allWsSpace] using ih1
          · rw [noAdjWs_cons]
            simp only [headOk, hd, Bool.and_eq_true]
            exact ⟨by simp, ih2⟩
    · simp only [collapseRuns, hc, Bool.false_eq_true, if_false]
      refine ⟨?_, ?_⟩
      · simpa [allWsSpace, hc] using ih1
      · rw [noAdjWs_cons]
        simp only [Bool.and_eq_true]
        refine ⟨?_, ih2⟩
        cases collapseRuns cs with
        | nil => rfl
        | cons d ds => simp [headOk, hc]

theorem dropSpaceBeforePunct_norm (l : List Char)
    (h1 : allWsSpace l) (h2 : noAdjWs l) :
    allWsSpace (dropSpaceBeforePunct l) ∧ noAdjWs (dropSpaceBeforePunct l)
    ∧ noWsPunct (dropSpaceBeforePunct l)
    ∧ ∀ d ds, dropSpaceBeforePunct l = d :: ds →
        (∃ t, l = d :: t) ∨ isCleanPunct d := by
  induction l with
  | nil =>
    refine ⟨rfl, rfl, rfl, fun d ds h => ?_⟩
    simp [dropSpaceBeforePunct] at h
  | cons c cs ih =>
    have h1c : (!(isPySpace c) || c = ' ') := by
      simpa [allWsSpace] using And.left (by simpa [allWsSpace] using h1)
    have h1s : allWsSpace cs := by
      have := (by simpa [allWsSpace] using h1 :
        ((!(isPySpace c) || c = ' ') = true ∧ allWsSpace cs = true))
      exact this.2
    have h2head : headOk (fun b => !(isPySpace c && isPySpace b)) cs := by
      have := (noAdjWs_cons c cs) ▸ h2
      exact (Bool.and_eq_true _ _ |>.mp this).1
    have h2s : noAdjWs cs := by
      have := (noAdjWs_cons c cs) ▸ h2
      exact (Bool.and_eq_true _ _ |>.mp this).2
    obtain ⟨ia, in2, ip, ihead⟩ := ih h1s h2s
    by_cases hc : isPySpace c
    · cases hacc : dropSpaceBeforePunct cs with
      | nil =>
        simp only [dropSpaceBeforePunct, hc, if_true, hacc]
        refine ⟨?_, rfl, rfl, fun d ds h => ?_⟩
        · simp [allWsSpace, h1c]
        · simp only [List.cons.injEq] at h
          exact Or.inl ⟨cs, by rw [h.1]⟩
      | cons d ds =>
        rw [hacc] at ia in2 ip
        by_cases hd : isCleanPunct d
        · simp only [dropSpaceBeforePunct, hc, if_true, hacc, hd]
          exact ⟨ia, in2, ip, fun e es h => by
            simp only [List.cons.injEq] at h
            exact Or.inr (h.1 ▸ hd)⟩
        · have hdcs : ∃ t, cs = d :: t := by
            rcases ihead d ds hacc with h | h
            · exact h
            · exact absurd h (by simp [hd])
          have hdws : isPySpace d = false := by
            obtain ⟨t, ht⟩ := hdcs
            rw [ht] at h2head
            simp only [headOk, hc] at h2head
            simpa using h2head
          simp only [dropSpaceBeforePunct, hc, if_true, hacc, hd,
            Bool.false_eq_true, if_false]
          refine ⟨?_, ?_, ?_, fun e es h => ?_⟩
          · simpa [allWsSpace, h1c] using ia
          · rw [noAdjWs_cons]
            simp only [headOk, Bool.and_eq_true]
            exact ⟨by simp [hdws], in2⟩
          · rw [noWsPunct_cons]
            simp only [headOk, Bool.and_eq_true]
            exact ⟨by simp [hd], ip⟩
          · simp only [List.cons.injEq] at h
            exact Or.inl ⟨cs, by rw [h.1]⟩
    · simp only [dropSpaceBeforePunct, hc, Bool.false_eq_true, if_false]
      refine ⟨?_, ?_, ?_, fun e es h => ?_⟩
      · simpa [allWsSpace, h1c] using ia
      · rw [noAdjWs_cons]
        simp only [Bool.and_eq_true]
        refine ⟨?_, in2⟩
        cases dropSpaceBeforePunct cs with
        | nil => rfl
        | cons d ds => simp [headOk, hc]
      · rw [noWsPunct_cons]
        simp only [Bool.and_eq_true]
        refine ⟨?_, ip⟩
        cases dropSpaceBeforePunct cs with
        | nil => rfl
        | cons d ds => simp [headOk, hc]
      · simp only [List.cons.injEq] at h
        exact Or.inl ⟨cs, by rw [h.1]⟩

theorem squeeze_cons_punct (c : Char) (cs : List Char)
    (hc : isCleanPunct c = true) :
    squeezeSpaceAfterPunct (c :: cs) =
      (match squeezeSpaceAfterPunct cs with
       | d :: ds => if isPySpace d then c :: ' ' :: ds.dropWhile isPySpace
                    else c :: (d :: ds)
       | [] => c :: []) := by
  simp only [squeezeSpaceAfterPunct, hc, if_true]
  cases squeezeSpaceAfterPunct cs with
  | nil => rfl
  | cons d ds => by_cases hd : isPySpace d <;> simp [hd]

theorem squeeze_cons_nonpunct (c : Char) (cs : List Char)
    (hc : isCleanPunct c = false) :
    squeezeSpaceAfterPunct (c :: cs) = c :: squeezeSpaceAfterPunct cs := by
  simp only [squeezeSpaceAfterPunct, hc, Bool.false_eq_true, if_false]

theorem squeezeSpaceAfterPunct_id (l : List Char)
    (h1 : allWsSpace l) (h2 : noAdjWs l) : squeezeSpaceAfterPunct l = l := by
  induction l with
  | nil => rfl
  | cons c cs ih =>
    have h1p : ((!(isPySpace c) || c = ' ') = true ∧ allWsSpace cs = true) := by
      simpa [allWsSpace] using h1
    have h2s : noAdjWs cs := by
      have := (noAdjWs_cons c cs) ▸ h2
      exact (Bool.and_eq_true _ _ |>.mp this).2
    have ih2 : squeezeSpaceAfterPunct cs = cs := ih h1p.2 h2s
    by_cases hc : isCleanPunct c
    · rw [squeeze_cons_punct c cs hc, ih2]
      cases hcs : cs with
      | nil => rfl
      | cons d ds =>
        by_cases hd : isPySpace d
        · have hdsp : d = ' ' := by
            have hall := h1p.2
            rw [hcs] at hall
            have hh : ((!(isPySpace d) || d = ' ') = true ∧ allWsSpace ds = true) := by
              simpa [allWsSpace] using hall
            rcases Bool.or_eq_true _ _ |>.mp hh.1 with h | h
            · exact absurd hd (by simpa using h)
            · simpa using h
          have hds : ds.dropWhile isPySpace = ds := by
            have h2cs := h2s
            rw [hcs] at h2cs
            have hh := (noAdjWs_cons d ds) ▸ h2cs
            have hhead := (Bool.and_eq_true _ _ |>.mp hh).1
            cases ds with
            | nil => rfl
            | cons e es =>
              simp only [headOk, hd, Bool.true_and] at hhead
              have he : ¬ (isPySpace e = true) := by simpa using hhead
              exact List.dropWhile_cons_of_neg he
          simp only [hd, if_true, hds]
          rw [hdsp]
        · simp only [hd, Bool.false_eq_true, if_false]
    · rw [squeeze_cons_nonpunct c cs (by simpa using hc), ih2]

theorem headOk_append_left (p : Char → Bool) (l1 l2 : List Char)
    (h : headOk p (l1 ++ l2)) : headOk p l1 := by
  cases l1 with
  | nil => rfl
  | cons a t => simpa [headOk] using h

theorem pairOk_append_left (p : Char → Char → Bool) :
    ∀ l1 l2 : List Char, pairOk p (l1 ++ l2) → pairOk p l1 := by
  intro l1
  induction l1 with
  | nil => intro l2 _; rfl
  | cons a t ih =>
    intro l2 h
    rw [List.cons_append, pairOk_cons] at h
    obtain ⟨hh, ht⟩ := Bool.and_eq_true _ _ |>.mp h
    rw [pairOk_cons]
    refine Bool.and_eq_true _ _ |>.mpr ⟨?_, ih l2 ht⟩
    exact headOk_append_left _ t l2 hh

theorem allWsSpace_append_left :
    ∀ l1 l2 : List Char, allWsSpace (l1 ++ l2) → allWsSpace l1 := by
  intro l1
  induction l1 with
  | nil => intro l2 _; rfl
  | cons a t ih =>
    intro l2 h
    have hp : ((!(isPySpace a) || a = ' ') = true ∧ allWsSpace (t ++ l2) = true) := by
      simpa [allWsSpace] using h
    simp [allWsSpace, hp.1]
    exact ih l2 hp.2

theorem pairOk_dropWhile (p : Char → Char → Bool) (q : Char → Bool) :
    ∀ l : List Char, pairOk p l → pairOk p (l.dropWhile q) := by
  intro l
  induction l with
  | nil => intro _; rfl
  | cons a t ih =>
    intro h
    rw [pairOk_cons] at h
    obtain ⟨_, ht⟩ := Bool.and_eq_true _ _ |>.mp h
    by_cases hq : q a
    · rw [List.dropWhile_cons_of_pos hq]
      exact ih ht
    · rw [List.dropWhile_cons_of_neg hq, pairOk_cons]
      exact h

theorem allWsSpace_dropWhile (q : Char → Bool) :
    ∀ l : List Char, allWsSpace l → allWsSpace (l.dropWhile q) := by
  intro l
  induction l with
  | nil => intro _; rfl
  | cons a t ih =>
    intro h
    have hp : ((!(isPySpace a) || a = ' ') = true ∧ allWsSpace t = true) := by
      simpa [allWsSpace] using h
    by_cases hq : q a
    · rw [List.dropWhile_cons_of_pos hq]
      exact ih hp.2
    · rw [List.dropWhile_cons_of_neg hq]
      simp [allWsSpace, hp.1]
      exact hp.2

theorem headOk_dropWhile (q : Char → Bool) :
    ∀ l : List Char, headOk (fun c => !q c) (l.dropWhile q) := by
  intro l
  induction l with
  | nil => rfl
  | cons a t ih =>
    by_cases hq : q a
    · rw [List.dropWhile_cons_of_pos hq]
      exact ih
    · rw [List.dropWhile_cons_of_neg hq]
      simpa [headOk] using hq

theorem dropWhile_eq_self_of_headOk (q : Char → Bool) (l : List Char)
    (h : headOk (fun c => !q c) l) : l.dropWhile q = l := by
  cases l with
  | nil => rfl
  | cons a t =>
    have ha : ¬ q a := by simpa [headOk] using h
    exact List.dropWhile_cons_of_neg ha

theorem rdrop_decomp (q : Char → Bool) (l : List Char) :
    ∃ t, l = (l.reverse.dropWhile q).reverse ++ t := by
  obtain ⟨s, hs⟩ := List.dropWhile_suffix (l := l.reverse) (p := q)
  refine ⟨s.reverse, ?_⟩
  have : l.reverse.reverse = (s ++ l.reverse.dropWhile q).reverse := by rw [hs]
  simpa [List.reverse_append] using this

theorem pyStrip_norm (l : List Char)
    (h1 : allWsSpace l) (h2 : noAdjWs l) (h3 : noWsPunct l) :
    allWsSpace (pyStrip l) ∧ noAdjWs (pyStrip l) ∧ noWsPunct (pyStrip l)
    ∧ headOk (fun c => !isPySpace c) (pyStrip l)
    ∧ headOk (fun c => !isPySpace c) (pyStrip l).reverse := by
  have h1a : allWsSpace (l.dropWhile isPySpace) := allWsSpace_dropWhile _ l h1
  have h2a : noAdjWs (l.dropWhile isPySpace) := pairOk_dropWhile _ _ l h2
  have h3a : noWsPunct (l.dropWhile isPySpace) := pairOk_dropWhile _ _ l h3
  have hhead : headOk (fun c => !isPySpace c) (l.dropWhile isPySpace) :=
    headOk_dropWhile _ l
  obtain ⟨t, ht⟩ := rdrop_decomp isPySpace (l.dropWhile isPySpace)
  have hps : pyStrip l =
      ((l.dropWhile isPySpace).reverse.dropWhile isPySpace).reverse := rfl
  refine ⟨?_, ?_, ?_, ?_, ?_⟩
  · rw [hps]
    exact allWsSpace_append_left _ t (ht ▸ h1a)
  · rw [hps]
    exact pairOk_append_left _ _ t (ht ▸ h2a)
  · rw [hps]
    exact pairOk_append_left _ _ t (ht ▸ h3a)
  · rw [hps]
    exact headOk_append_left _ _ t (ht ▸ hhead)
  · rw [hps, List.reverse_reverse]
    exact headOk_dropWhile _ _

theorem replaceNewlines_id (l : List Char) (h : allWsSpace l) :
    replaceNewlines l = l := by
  induction l with
  | nil => rfl
  | cons c cs ih =>
    have hp : ((!(isPySpace c) || c = ' ') = true ∧ allWsSpace cs = true) := by
      simpa [allWsSpace] using h
    have hc : c ≠ '\n' := by
      intro hceq
      subst hceq
      rcases Bool.or_eq_true _ _ |>.mp hp.1 with hh | hh
      · exact absurd hh (by decide)
      · exact absurd hh (by decide)
    simp only [replaceNewlines, List.map_cons, if_neg hc]
    have := ih hp.2
    simp only [replaceNewlines] at this
    rw [this]

theorem collapseRuns_cons_ws (c : Char) (cs : List Char)
    (hc : isPySpace c = true) :
    collapseRuns (c :: cs) =
      (match collapseRuns cs with
       | d :: ds => if isPySpace d then d :: ds else ' ' :: d :: ds
       | [] => [' ']) := by
  simp only [collapseRuns, hc, if_true]
  cases collapseRuns cs with
  | nil => rfl
  | cons d ds => by_cases hd : isPySpace d <;> simp [hd]

theorem collapseRuns_cons_nonws (c : Char) (cs : List Char)
    (hc : isPySpace c = false) :
    collapseRuns (c :: cs) = c :: collapseRuns cs := by
  simp only [collapseRuns, hc, Bool.false_eq_true, if_false]

theorem dropSpace_cons_ws (c : Char) (cs : List Char)
    (hc : isPySpace c = true) :
    dropSpaceBeforePunct (c :: cs) =
      (match dropSpaceBeforePunct cs with
       | d :: ds => if isCleanPunct d then d :: ds else c :: d :: ds
       | [] => [c]) := by
  simp only [dropSpaceBeforePunct, hc, if_true]
  cases dropSpaceBeforePunct cs with
  | nil => rfl
  | cons d ds => by_cases hd : isCleanPunct d <;> simp [hd]

theorem dropSpace_cons_nonws (c : Char) (cs : List Char)
    (hc : isPySpace c = false) :
    dropSpaceBeforePunct (c :: cs) = c :: dropSpaceBeforePunct cs := by
  simp only [dropSpaceBeforePunct, hc, Bool.false_eq_true, if_false]

theorem collapseRuns_id (l : List Char)
    (h1 : allWsSpace l) (h2 : noAdjWs l) : collapseRuns l = l := by
  induction l with
  | nil => rfl
  | cons c cs ih =>
    have h1p : ((!(isPySpace c) || c = ' ') = true ∧ allWsSpace cs = true) := by
      simpa [allWsSpace] using h1
    have h2head : headOk (fun b => !(isPySpace c && isPySpace b)) cs := by
      have := (noAdjWs_cons c cs) ▸ h2
      exact (Bool.and_eq_true _ _ |>.mp this).1
    have h2s : noAdjWs cs := by
      have := (noAdjWs_cons c cs) ▸ h2
      exact (Bool.and_eq_true _ _ |>.mp this).2
    have ih2 : collapseRuns cs = cs := ih h1p.2 h2s
    by_cases hc : isPySpace c
    · have hceq : c = ' ' := by
        rcases Bool.or_eq_true _ _ |>.mp h1p.1 with hh | hh
        · exact absurd hc (by simpa using hh)
        · simpa using hh
      rw [collapseRuns_cons_ws c cs hc, ih2]
      cases hcs : cs with
      | nil => rw [hceq]
      | cons d ds =>
        have hd : isPySpace d = false := by
          rw [hcs] at h2head
          simp only [headOk, hc, Bool.true_and] at h2head
          simpa using h2head
        simp only [hd, Bool.false_eq_true, if_false]
        rw [hceq]
    · rw [collapseRuns_cons_nonws c cs (by simpa using hc), ih2]

theorem dropSpaceBeforePunct_id (l : List Char) (h : noWsPunct l) :
    dropSpaceBeforePunct l = l := by
  induction l with
  | nil => rfl
  | cons c cs ih =>
    have hhead : headOk (fun b => !(isPySpace c && isCleanPunct b)) cs := by
      have := (noWsPunct_cons c cs) ▸ h
      exact (Bool.and_eq_true _ _ |>.mp this).1
    have hs : noWsPunct cs := by
      have := (noWsPunct_cons c cs) ▸ h
      exact (Bool.and_eq_true _ _ |>.mp this).2
    have ih2 : dropSpaceBeforePunct cs = cs := ih hs
    by_cases hc : isPySpace c
    · rw [dropSpace_cons_ws c cs hc, ih2]
      cases hcs : cs with
      | nil => rfl
      | cons d ds =>
        have hd : isCleanPunct d = false := by
          rw [hcs] at hhead
          simp only [headOk, hc, Bool.true_and] at hhead
          simpa using hhead
        simp only [hd, Bool.false_eq_true, if_false]
    · rw [dropSpace_cons_nonws c cs (by simpa using hc), ih2]

theorem pyStrip_id (l : List Char)
    (hh : headOk (fun c => !isPySpace c) l)
    (hl : headOk (fun c => !isPySpace c) l.reverse) : pyStrip l = l := by
  unfold pyStrip
  rw [dropWhile_eq_self_of_headOk _ l hh,
    dropWhile_eq_self_of_headOk _ l.reverse hl, List.reverse_reverse]

theorem clean_whitespace_normal (s : String) :
    cleanNormal (clean_whitespace s).data := by
  show cleanNormal (pyStrip (squeezeSpaceAfterPunct (dropSpaceBeforePunct
    (collapseRuns (replaceNewlines s.data)))))
  obtain ⟨a1, a2⟩ := collapseRuns_norm (replaceNewlines s.data)
  obtain ⟨b1, b2, b3, _⟩ := dropSpaceBeforePunct_norm _ a1 a2
  rw [squeezeSpaceAfterPunct_id _ b1 b2]
  exact pyStrip_norm _ b1 b2 b3

theorem clean_pipeline_id (m : List Char) (h : cleanNormal m) :
    pyStrip (squeezeSpaceAfterPunct (dropSpaceBeforePunct
      (collapseRuns (replaceNewlines m)))) = m := by
  obtain ⟨h1, h2, h3, h4, h5⟩ := h
  rw [replaceNewlines_id m h1, collapseRuns_id m h1 h2,
    dropSpaceBeforePunct_id m h3, squeezeSpaceAfterPunct_id m h1 h2,
    pyStrip_id m h4 h5]

/-- C7: the text normalizer is idempotent: applying `clean_whitespace`
twice gives the same result as applying it once, for every string; it is a
total function and maps the empty string to the empty string. -/
theorem clean_whitespace_idempotent (s : String) :
    clean_whitespace (clean_whitespace s) = clean_whitespace s
    ∧ clean_whitespace "" = "" := by
  constructor
  · show String.mk (pyStrip (squeezeSpaceAfterPunct (dropSpaceBeforePunct
      (collapseRuns (replaceNewlines (clean_whitespace s).data))))) =
        clean_whitespace s
    rw [clean_pipeline_id _ (clean_whitespace_normal s)]
  · decide

end Feuilleton
